import Mathlib

/-!
# Verification of the DV stick serial-protocol layer

Shallow embedding of the packet codec and stream assembler of
`src/index.ts` (class `DVstick30`): `encodePacket`, `addData`,
`tryDecodePacketsFromBuffer` and `decodePacket`, together with the
speech-command payload construction of `encodeSpeechPacket`.

Buffers are modelled as `List Nat` of byte values; Node `Buffer`
operations are translated one-for-one (`slice`, `indexOf`,
`readUInt16BE`, `readUInt8`, `toString` with the ascii encoding).  The one fallible
operation, `payload.readUInt8()` on an empty buffer, raises a range
error in Node; decoding therefore lands in `Except Unit`.
-/

/-- The constant `PACKET_TYPE_TO_ID` maps the packet-kind names used by
`encodePacket` to their wire identifiers. -/
inductive PacketKind where
  | control
  | speech
  | channel
deriving DecidableEq, Repr

def PACKET_TYPE_TO_ID : PacketKind → Nat
  | PacketKind.control => 0x00
  | PacketKind.speech => 0x02
  | PacketKind.channel => 0x01

/-- `lengthBuffer.writeUInt16BE(payload.length)`: the two big-endian
bytes of a 16-bit value.  (Node throws for values above `0xffff`; all
statements below stay under that bound, where the `% 256` on the high
byte is the identity.) -/
def writeUInt16BE (v : Nat) : List Nat :=
  [v / 256 % 256, v % 256]

/-- `DVstick30.encodePacket`: magic byte `0x61`, big-endian 16-bit
payload length, packet-type byte, payload. -/
def encodePacket (packetType : PacketKind) (payload : List Nat) : List Nat :=
  [0x61] ++ writeUInt16BE payload.length ++ [PACKET_TYPE_TO_ID packetType] ++ payload

/-- The payload written by `encodeSpeechPacket`:
`PKT_CHANNEL0` (the byte 0x40), then `SPEECHD = Buffer.from([0, 160])`, then
the PCM bytes of the speech packet. -/
def encodeSpeechPayload (data : List Nat) : List Nat :=
  [0x40] ++ [0x00, 0xA0] ++ data

/-- The full frame written to the serial port by `encodeSpeechPacket`. -/
def encodeSpeechPacketBytes (data : List Nat) : List Nat :=
  encodePacket PacketKind.speech (encodeSpeechPayload data)

/-- The decoded-packet union produced by `decodePacket` (the
`DecodedPacket` type of the source).  Strings are kept as their byte
codes after the Node ascii masking. -/
inductive DecodedPacket where
  | prodId (productId : List Nat)
  | verString (versionString : List Nat)
  | rateT
  | init (successfulInit : Bool)
  | ready
  | unknown (fieldIdentifier : Option Nat) (payload : List Nat)
  | outputSpeech (encodedSpeech : List Nat)
deriving DecidableEq, Repr

/-- Node ascii decoding of a buffer masks every byte to seven bits. -/
def toAscii (b : List Nat) : List Nat :=
  b.map (fun c => c % 128)

/-- `DVstick30.decodePacket`.  Type `1` (AMBE) wraps the raw payload;
type `0` (CONTROL) dispatches on `payload[0]`; every other type yields
`null` (here `Except.ok none`).  The case `0x0b` calls
`payload.readUInt8()` on `payload.slice(1)`, which raises
`ERR_OUT_OF_RANGE` when that slice is empty (`Except.error ()`). -/
def decodePacket (ptype : Nat) (payload : List Nat) : Except Unit (Option DecodedPacket) :=
  if ptype = 1 then
    Except.ok (some (DecodedPacket.outputSpeech payload))
  else if ptype = 0 then
    let fieldIdentifier := payload.head?
    let rest := payload.drop 1
    if fieldIdentifier = some 0x30 then
      Except.ok (some (DecodedPacket.prodId (toAscii rest).dropLast))
    else if fieldIdentifier = some 0x31 then
      Except.ok (some (DecodedPacket.verString (toAscii rest).dropLast))
    else if fieldIdentifier = some 0x09 then
      Except.ok (some DecodedPacket.rateT)
    else if fieldIdentifier = some 0x0b then
      match rest with
      | [] => Except.error ()
      | b :: _ => Except.ok (some (DecodedPacket.init (b == 0)))
    else if fieldIdentifier = some 0x39 then
      Except.ok (some DecodedPacket.ready)
    else
      Except.ok (some (DecodedPacket.unknown fieldIdentifier rest))
  else
    Except.ok none

/-- `buf.readUInt8(n)` / `buf[n]` on an in-bounds index (all uses in
`tryDecodePacketsFromBuffer` are guarded). -/
def byteAt : List Nat → Nat → Nat
  | [], _ => 0
  | x :: _, 0 => x
  | _ :: xs, n + 1 => byteAt xs n

/-- `buffer.readUInt16BE(1)`: the 16-bit big-endian length field. -/
def lenOf (b : List Nat) : Nat :=
  byteAt b 1 * 256 + byteAt b 2

/-- The call `buffer.indexOf` with the magic byte 0x61: index of the first magic byte, if any. -/
def idxOfMagic : List Nat → Option Nat
  | [] => none
  | x :: xs => if x = 0x61 then some 0 else (idxOfMagic xs).map (· + 1)

/-- One pass of `tryDecodePacketsFromBuffer` after the buffer has been
resynchronised to its first magic byte:
`stop` = return leaving the (sliced) buffer as is;
`fatal` = a complete frame was handed to `decodePacket`, which raised,
so the buffer is not advanced past the frame;
`frame` = a complete frame was consumed and the recursion continues. -/
inductive StepResult where
  | stop (buffer : List Nat)
  | fatal (f : Nat × List Nat) (buffer : List Nat)
  | frame (f : Nat × List Nat) (rest : List Nat)
deriving DecidableEq, Repr

def stepSynced (b : List Nat) : StepResult :=
  if b.length < 5 then StepResult.stop b
  else if b.length < lenOf b + 4 then StepResult.stop b
  else
    match decodePacket (byteAt b 3) ((b.take (lenOf b + 4)).drop 4) with
    | Except.error _ =>
      StepResult.fatal (byteAt b 3, (b.take (lenOf b + 4)).drop 4) b
    | Except.ok _ =>
      StepResult.frame (byteAt b 3, (b.take (lenOf b + 4)).drop 4) (b.drop (lenOf b + 4))

/-- One step of `tryDecodePacketsFromBuffer`: locate the magic byte,
slice the buffer to it, then attempt one frame. -/
def step (buffer : List Nat) : StepResult :=
  match idxOfMagic buffer with
  | none => StepResult.stop buffer
  | some i => stepSynced (buffer.drop i)

/-- Fuel-indexed unfolding of the recursion in
`tryDecodePacketsFromBuffer`; `tryDecode` runs it with enough fuel.
Result: extracted `(packet_type, payload)` pairs in order, the final
buffer, and whether a decode exception escaped. -/
def tryDecodeFuel : Nat → List Nat → List (Nat × List Nat) × List Nat × Bool
  | 0, b => ([], b, false)
  | fuel + 1, buffer =>
    match step buffer with
    | StepResult.stop b => ([], b, false)
    | StepResult.fatal f b => ([f], b, true)
    | StepResult.frame f rest =>
      (f :: (tryDecodeFuel fuel rest).1,
       (tryDecodeFuel fuel rest).2.1,
       (tryDecodeFuel fuel rest).2.2)

/-- `DVstick30.tryDecodePacketsFromBuffer`, as a function of the
buffer contents. -/
def tryDecode (b : List Nat) : List (Nat × List Nat) × List Nat × Bool :=
  tryDecodeFuel b.length b

/-- `DVstick30.addData`: append the incoming bytes to the buffer. -/
def addData (buffer chunk : List Nat) : List Nat :=
  buffer ++ chunk

/-- Feed a sequence of chunks one at a time, running
`tryDecodePacketsFromBuffer` after each `addData`, starting from the
given buffer; accumulates the extracted frames in order. -/
def feedFrom (buffer : List Nat) : List (List Nat) → List (Nat × List Nat) × List Nat × Bool
  | [] => ([], buffer, false)
  | c :: cs =>
    ((tryDecode (addData buffer c)).1 ++ (feedFrom (tryDecode (addData buffer c)).2.1 cs).1,
     (feedFrom (tryDecode (addData buffer c)).2.1 cs).2.1,
     (tryDecode (addData buffer c)).2.2 || (feedFrom (tryDecode (addData buffer c)).2.1 cs).2.2)

deriving instance DecidableEq for Except


/-! ## List helpers -/

theorem take_append_le (l t : List Nat) (n : Nat) (h : n ≤ l.length) :
    (l ++ t).take n = l.take n := by
  rw [List.take_append_eq_append_take, Nat.sub_eq_zero_of_le h]
  simp

theorem drop_append_le (l t : List Nat) (n : Nat) (h : n ≤ l.length) :
    (l ++ t).drop n = l.drop n ++ t := by
  rw [List.drop_append_eq_append_drop, Nat.sub_eq_zero_of_le h]
  simp

theorem suffix_append_right {a b : List Nat} (t : List Nat) (h : a <:+ b) :
    a ++ t <:+ b ++ t := by
  rcases h with ⟨w, rfl⟩
  exact ⟨w, (List.append_assoc w a t).symm⟩

theorem head?_append_left {l : List Nat} (t : List Nat) (x : Nat)
    (h : l.head? = some x) : (l ++ t).head? = some x := by
  cases l with
  | nil => simp at h
  | cons a as => simpa using h

/-! ## `byteAt` -/

theorem byteAt_append (l t : List Nat) (n : Nat) (h : n < l.length) :
    byteAt (l ++ t) n = byteAt l n := by
  induction l generalizing n with
  | nil => simp at h
  | cons a as ih =>
    cases n with
    | zero => rfl
    | succ m =>
      simp only [List.length_cons, Nat.succ_lt_succ_iff] at h
      simpa [byteAt] using ih m h

theorem lenOf_append (l t : List Nat) (h : 3 ≤ l.length) :
    lenOf (l ++ t) = lenOf l := by
  unfold lenOf
  rw [byteAt_append l t 1 (by omega), byteAt_append l t 2 (by omega)]

/-! ## `idxOfMagic` -/

theorem idxOfMagic_cons (x : Nat) (xs : List Nat) :
    idxOfMagic (x :: xs) = if x = 0x61 then some 0 else (idxOfMagic xs).map (· + 1) :=
  rfl

theorem idxOfMagic_bound {s : List Nat} {i : Nat} (h : idxOfMagic s = some i) :
    i < s.length := by
  induction s generalizing i with
  | nil => simp [idxOfMagic] at h
  | cons x xs ih =>
    rw [idxOfMagic_cons] at h
    by_cases hx : x = 0x61
    · rw [if_pos hx, Option.some_inj] at h
      subst h
      simp
    · rw [if_neg hx, Option.map_eq_some'] at h
      obtain ⟨j, hj, rfl⟩ := h
      have := ih hj
      simp only [List.length_cons]
      omega

theorem idxOfMagic_drop_head {s : List Nat} {i : Nat} (h : idxOfMagic s = some i) :
    (s.drop i).head? = some 0x61 := by
  induction s generalizing i with
  | nil => simp [idxOfMagic] at h
  | cons x xs ih =>
    rw [idxOfMagic_cons] at h
    by_cases hx : x = 0x61
    · rw [if_pos hx, Option.some_inj] at h
      subst h
      simp [hx]
    · rw [if_neg hx, Option.map_eq_some'] at h
      obtain ⟨j, hj, rfl⟩ := h
      simpa using ih hj

theorem idxOfMagic_append_some {s : List Nat} {i : Nat} (t : List Nat)
    (h : idxOfMagic s = some i) : idxOfMagic (s ++ t) = some i := by
  induction s generalizing i with
  | nil => simp [idxOfMagic] at h
  | cons x xs ih =>
    rw [idxOfMagic_cons] at h
    by_cases hx : x = 0x61
    · rw [if_pos hx, Option.some_inj] at h
      subst h
      rw [List.cons_append, idxOfMagic_cons, if_pos hx]
    · rw [if_neg hx, Option.map_eq_some'] at h
      obtain ⟨j, hj, rfl⟩ := h
      rw [List.cons_append, idxOfMagic_cons, if_neg hx, ih hj, Option.map_some']

theorem idxOfMagic_of_head {s : List Nat} (h : s.head? = some 0x61) :
    idxOfMagic s = some 0 := by
  cases s with
  | nil => simp at h
  | cons x xs =>
    simp only [List.head?_cons, Option.some_inj] at h
    simp [idxOfMagic, h]

/-! ## `stepSynced` -/

theorem stepSynced_of_short {b : List Nat} (h : b.length < 5) :
    stepSynced b = StepResult.stop b := by
  unfold stepSynced
  rw [if_pos h]

theorem stepSynced_of_incomplete {b : List Nat} (h5 : ¬ b.length < 5)
    (hc : b.length < lenOf b + 4) : stepSynced b = StepResult.stop b := by
  unfold stepSynced
  rw [if_neg h5, if_pos hc]

theorem stepSynced_stop_eq {b r : List Nat} (h : stepSynced b = StepResult.stop r) :
    r = b := by
  unfold stepSynced at h
  split at h
  · cases h
    rfl
  · split at h
    · cases h
      rfl
    · split at h <;> simp at h

theorem stepSynced_frame_inv {b : List Nat} {f : Nat × List Nat} {rest : List Nat}
    (h : stepSynced b = StepResult.frame f rest) :
    5 ≤ b.length ∧ lenOf b + 4 ≤ b.length ∧
    f = (byteAt b 3, (b.take (lenOf b + 4)).drop 4) ∧
    rest = b.drop (lenOf b + 4) ∧
    ∃ d, decodePacket (byteAt b 3) ((b.take (lenOf b + 4)).drop 4) = Except.ok d := by
  unfold stepSynced at h
  split at h
  · simp at h
  · split at h
    · simp at h
    · rename_i h5 hc
      split at h
      · simp at h
      · rename_i d hd
        cases h
        exact ⟨by omega, by omega, rfl, rfl, d, hd⟩

theorem stepSynced_fatal_inv {b : List Nat} {f : Nat × List Nat} {r : List Nat}
    (h : stepSynced b = StepResult.fatal f r) :
    r = b ∧ 5 ≤ b.length ∧ lenOf b + 4 ≤ b.length ∧
    f = (byteAt b 3, (b.take (lenOf b + 4)).drop 4) ∧
    decodePacket (byteAt b 3) ((b.take (lenOf b + 4)).drop 4) = Except.error () := by
  unfold stepSynced at h
  split at h
  · simp at h
  · split at h
    · simp at h
    · rename_i h5 hc
      split at h
      · rename_i e he
        cases h
        cases e
        exact ⟨rfl, by omega, by omega, rfl, he⟩
      · simp at h

theorem stepSynced_frame_append {b : List Nat} {f : Nat × List Nat} {rest : List Nat}
    (t : List Nat) (h : stepSynced b = StepResult.frame f rest) :
    stepSynced (b ++ t) = StepResult.frame f (rest ++ t) := by
  obtain ⟨h5, hc, hf, hr, d, hd⟩ := stepSynced_frame_inv h
  have hlen : lenOf (b ++ t) = lenOf b := lenOf_append b t (by omega)
  have hby : byteAt (b ++ t) 3 = byteAt b 3 := byteAt_append b t 3 (by omega)
  have htk : (b ++ t).take (lenOf b + 4) = b.take (lenOf b + 4) := take_append_le b t _ hc
  have hdp : (b ++ t).drop (lenOf b + 4) = b.drop (lenOf b + 4) ++ t := drop_append_le b t _ hc
  unfold stepSynced
  rw [hlen, if_neg (by simp only [List.length_append]; omega),
    if_neg (by simp only [List.length_append]; omega), hby, htk, hdp, hd, hf, hr]

theorem stepSynced_fatal_append {b : List Nat} {f : Nat × List Nat} {r : List Nat}
    (t : List Nat) (h : stepSynced b = StepResult.fatal f r) :
    stepSynced (b ++ t) = StepResult.fatal f (b ++ t) := by
  obtain ⟨hr, h5, hc, hf, hd⟩ := stepSynced_fatal_inv h
  have hlen : lenOf (b ++ t) = lenOf b := lenOf_append b t (by omega)
  have hby : byteAt (b ++ t) 3 = byteAt b 3 := byteAt_append b t 3 (by omega)
  have htk : (b ++ t).take (lenOf b + 4) = b.take (lenOf b + 4) := take_append_le b t _ hc
  unfold stepSynced
  rw [hlen, if_neg (by simp only [List.length_append]; omega),
    if_neg (by simp only [List.length_append]; omega), hby, htk, hd, hf]

/-! ## `step` -/

theorem step_of_none {b : List Nat} (h : idxOfMagic b = none) :
    step b = StepResult.stop b := by
  unfold step
  rw [h]

theorem step_of_some {b : List Nat} {i : Nat} (h : idxOfMagic b = some i) :
    step b = stepSynced (b.drop i) := by
  unfold step
  rw [h]

theorem step_of_head {b : List Nat} (h : b.head? = some 0x61) :
    step b = stepSynced b := by
  rw [step_of_some (idxOfMagic_of_head h), List.drop_zero]

theorem step_stop_again {b r : List Nat} (h : step b = StepResult.stop r) :
    step r = StepResult.stop r := by
  cases hi : idxOfMagic b with
  | none =>
    rw [step_of_none hi] at h
    cases h
    exact step_of_none hi
  | some i =>
    rw [step_of_some hi] at h
    have hr : r = b.drop i := stepSynced_stop_eq h
    subst hr
    rw [step_of_head (idxOfMagic_drop_head hi)]
    exact h

theorem step_stop_append {s r : List Nat} (t : List Nat)
    (h : step s = StepResult.stop r) : step (s ++ t) = step (r ++ t) := by
  cases hi : idxOfMagic s with
  | none =>
    rw [step_of_none hi] at h
    cases h
    rfl
  | some i =>
    rw [step_of_some hi] at h
    have hr : r = s.drop i := stepSynced_stop_eq h
    have hik : i ≤ s.length := le_of_lt (idxOfMagic_bound hi)
    have hh : r.head? = some 0x61 := hr ▸ idxOfMagic_drop_head hi
    rw [step_of_some (idxOfMagic_append_some t hi), drop_append_le s t i hik,
      step_of_head (head?_append_left t _ hh), hr]

theorem step_frame_append {s : List Nat} {f : Nat × List Nat} {rest : List Nat}
    (t : List Nat) (h : step s = StepResult.frame f rest) :
    step (s ++ t) = StepResult.frame f (rest ++ t) := by
  cases hi : idxOfMagic s with
  | none =>
    rw [step_of_none hi] at h
    simp at h
  | some i =>
    rw [step_of_some hi] at h
    have hik : i ≤ s.length := le_of_lt (idxOfMagic_bound hi)
    rw [step_of_some (idxOfMagic_append_some t hi), drop_append_le s t i hik]
    exact stepSynced_frame_append t h

theorem step_fatal_append {s : List Nat} {f : Nat × List Nat} {r : List Nat}
    (t : List Nat) (h : step s = StepResult.fatal f r) :
    step (s ++ t) = StepResult.fatal f (r ++ t) := by
  cases hi : idxOfMagic s with
  | none =>
    rw [step_of_none hi] at h
    simp at h
  | some i =>
    rw [step_of_some hi] at h
    have hik : i ≤ s.length := le_of_lt (idxOfMagic_bound hi)
    have hr : r = s.drop i := (stepSynced_fatal_inv h).1
    subst hr
    rw [step_of_some (idxOfMagic_append_some t hi), drop_append_le s t i hik]
    exact stepSynced_fatal_append t h

theorem step_frame_len {b : List Nat} {f : Nat × List Nat} {rest : List Nat}
    (h : step b = StepResult.frame f rest) : rest.length + 4 ≤ b.length := by
  cases hi : idxOfMagic b with
  | none =>
    rw [step_of_none hi] at h
    simp at h
  | some i =>
    rw [step_of_some hi] at h
    obtain ⟨h5, hc, -, hr, -⟩ := stepSynced_frame_inv h
    have h1 : (b.drop i).length = b.length - i := List.length_drop i b
    have h2 : rest.length = (b.drop i).length - (lenOf (b.drop i) + 4) := by
      rw [hr, List.length_drop]
    omega

theorem step_fatal_len {b : List Nat} {f : Nat × List Nat} {r : List Nat}
    (h : step b = StepResult.fatal f r) : 5 ≤ b.length := by
  cases hi : idxOfMagic b with
  | none =>
    rw [step_of_none hi] at h
    simp at h
  | some i =>
    rw [step_of_some hi] at h
    have h5 : 5 ≤ (b.drop i).length := (stepSynced_fatal_inv h).2.1
    have h1 : (b.drop i).length = b.length - i := List.length_drop i b
    omega

theorem step_stop_suffix {b r : List Nat} (h : step b = StepResult.stop r) :
    r <:+ b := by
  cases hi : idxOfMagic b with
  | none =>
    rw [step_of_none hi] at h
    cases h
    exact List.suffix_refl b
  | some i =>
    rw [step_of_some hi] at h
    rw [stepSynced_stop_eq h]
    exact List.drop_suffix i b

theorem step_fatal_suffix {b r : List Nat} {f : Nat × List Nat}
    (h : step b = StepResult.fatal f r) : r <:+ b := by
  cases hi : idxOfMagic b with
  | none =>
    rw [step_of_none hi] at h
    simp at h
  | some i =>
    rw [step_of_some hi] at h
    rw [(stepSynced_fatal_inv h).1]
    exact List.drop_suffix i b

theorem step_frame_suffix {b rest : List Nat} {f : Nat × List Nat}
    (h : step b = StepResult.frame f rest) : rest <:+ b := by
  cases hi : idxOfMagic b with
  | none =>
    rw [step_of_none hi] at h
    simp at h
  | some i =>
    rw [step_of_some hi] at h
    rw [(stepSynced_frame_inv h).2.2.2.1]
    exact (List.drop_suffix _ _).trans (List.drop_suffix i b)

/-! ## `tryDecode` -/

theorem tryDecodeFuel_irrel : ∀ f1 f2 b, b.length ≤ f1 → b.length ≤ f2 →
    tryDecodeFuel f1 b = tryDecodeFuel f2 b := by
  intro f1
  induction f1 with
  | zero =>
    intro f2 b h1 h2
    have hb : b = [] := List.length_eq_zero.mp (Nat.le_zero.mp h1)
    subst hb
    cases f2 with
    | zero => rfl
    | succ m => simp [tryDecodeFuel, step, idxOfMagic]
  | succ n ih =>
    intro f2 b h1 h2
    cases f2 with
    | zero =>
      have hb : b = [] := List.length_eq_zero.mp (Nat.le_zero.mp h2)
      subst hb
      simp [tryDecodeFuel, step, idxOfMagic]
    | succ m =>
      simp only [tryDecodeFuel]
      cases h : step b with
      | stop r => rfl
      | fatal f r => rfl
      | frame f rest =>
        have hlt : rest.length + 4 ≤ b.length := step_frame_len h
        have heq := ih m rest (by omega) (by omega)
        simp only [heq]

theorem tryDecode_eq (b : List Nat) : tryDecode b =
    match step b with
    | StepResult.stop r => ([], r, false)
    | StepResult.fatal f r => ([f], r, true)
    | StepResult.frame f rest =>
      (f :: (tryDecode rest).1, (tryDecode rest).2.1, (tryDecode rest).2.2) := by
  unfold tryDecode
  cases hb : b.length with
  | zero =>
    have hnil : b = [] := List.length_eq_zero.mp hb
    subst hnil
    simp [tryDecodeFuel, step, idxOfMagic]
  | succ n =>
    simp only [tryDecodeFuel]
    cases h : step b with
    | stop r => rfl
    | fatal f r => rfl
    | frame f rest =>
      have hlt : rest.length + 4 ≤ b.length := step_frame_len h
      have heq := tryDecodeFuel_irrel n rest.length rest (by omega) (le_refl _)
      simp only [heq]

theorem tryDecode_of_stop {b r : List Nat} (h : step b = StepResult.stop r) :
    tryDecode b = ([], r, false) := by
  rw [tryDecode_eq, h]

theorem tryDecode_of_fatal {b r : List Nat} {f : Nat × List Nat}
    (h : step b = StepResult.fatal f r) : tryDecode b = ([f], r, true) := by
  rw [tryDecode_eq, h]

theorem tryDecode_of_frame {b rest : List Nat} {f : Nat × List Nat}
    (h : step b = StepResult.frame f rest) :
    tryDecode b =
      (f :: (tryDecode rest).1, (tryDecode rest).2.1, (tryDecode rest).2.2) := by
  rw [tryDecode_eq, h]

theorem tryDecode_congr {a b : List Nat} (h : step a = step b) :
    tryDecode a = tryDecode b := by
  rw [tryDecode_eq a, tryDecode_eq b, h]

theorem tryDecode_append_ok : ∀ (n : Nat) (s t : List Nat), s.length ≤ n →
    (tryDecode s).2.2 = false →
    tryDecode (s ++ t) =
      ((tryDecode s).1 ++ (tryDecode ((tryDecode s).2.1 ++ t)).1,
       (tryDecode ((tryDecode s).2.1 ++ t)).2.1,
       (tryDecode ((tryDecode s).2.1 ++ t)).2.2) := by
  intro n
  induction n with
  | zero =>
    intro s t hs _
    have hnil : s = [] := List.length_eq_zero.mp (Nat.le_zero.mp hs)
    subst hnil
    simp [tryDecode, tryDecodeFuel]
  | succ n ih =>
    intro s t hs hok
    cases h : step s with
    | stop r =>
      rw [tryDecode_of_stop h, tryDecode_congr (step_stop_append t h)]
      simp
    | fatal f r =>
      rw [tryDecode_of_fatal h] at hok
      simp at hok
    | frame f rest =>
      have hlen : rest.length ≤ n := by
        have := step_frame_len h
        omega
      rw [tryDecode_of_frame h] at hok
      simp only at hok
      rw [tryDecode_of_frame h, tryDecode_of_frame (step_frame_append t h),
        ih rest t hlen hok]
      simp

theorem tryDecode_append_err : ∀ (n : Nat) (s t : List Nat), s.length ≤ n →
    (tryDecode s).2.2 = true →
    tryDecode (s ++ t) = ((tryDecode s).1, (tryDecode s).2.1 ++ t, true) := by
  intro n
  induction n with
  | zero =>
    intro s t hs hok
    have hnil : s = [] := List.length_eq_zero.mp (Nat.le_zero.mp hs)
    subst hnil
    simp [tryDecode, tryDecodeFuel] at hok
  | succ n ih =>
    intro s t hs hok
    cases h : step s with
    | stop r =>
      rw [tryDecode_of_stop h] at hok
      simp at hok
    | fatal f r =>
      rw [tryDecode_of_fatal h, tryDecode_of_fatal (step_fatal_append t h)]
    | frame f rest =>
      have hlen : rest.length ≤ n := by
        have := step_frame_len h
        omega
      rw [tryDecode_of_frame h] at hok
      simp only at hok
      rw [tryDecode_of_frame h, tryDecode_of_frame (step_frame_append t h),
        ih rest t hlen hok]

theorem tryDecode_residue : ∀ (n : Nat) (b : List Nat), b.length ≤ n →
    (tryDecode b).2.2 = false →
    step (tryDecode b).2.1 = StepResult.stop (tryDecode b).2.1 := by
  intro n
  induction n with
  | zero =>
    intro b hb _
    have hnil : b = [] := List.length_eq_zero.mp (Nat.le_zero.mp hb)
    subst hnil
    simp [tryDecode, tryDecodeFuel, step, idxOfMagic]
  | succ n ih =>
    intro b hb hok
    cases h : step b with
    | stop r =>
      rw [tryDecode_of_stop h]
      exact step_stop_again h
    | fatal f r =>
      rw [tryDecode_of_fatal h] at hok
      simp at hok
    | frame f rest =>
      have hlen : rest.length ≤ n := by
        have := step_frame_len h
        omega
      rw [tryDecode_of_frame h] at hok
      simp only at hok
      rw [tryDecode_of_frame h]
      exact ih rest hlen hok

theorem tryDecode_suffix : ∀ (n : Nat) (b : List Nat), b.length ≤ n →
    (tryDecode b).2.1 <:+ b := by
  intro n
  induction n with
  | zero =>
    intro b hb
    have hnil : b = [] := List.length_eq_zero.mp (Nat.le_zero.mp hb)
    subst hnil
    exact List.suffix_refl []
  | succ n ih =>
    intro b hb
    cases h : step b with
    | stop r =>
      rw [tryDecode_of_stop h]
      exact step_stop_suffix h
    | fatal f r =>
      rw [tryDecode_of_fatal h]
      exact step_fatal_suffix h
    | frame f rest =>
      have hlen : rest.length ≤ n := by
        have := step_frame_len h
        omega
      rw [tryDecode_of_frame h]
      exact (ih rest hlen).trans (step_frame_suffix h)

theorem tryDecode_frames_le : ∀ (n : Nat) (b : List Nat), b.length ≤ n →
    4 * (tryDecode b).1.length ≤ b.length := by
  intro n
  induction n with
  | zero =>
    intro b hb
    have hnil : b = [] := List.length_eq_zero.mp (Nat.le_zero.mp hb)
    subst hnil
    simp [tryDecode, tryDecodeFuel]
  | succ n ih =>
    intro b hb
    cases h : step b with
    | stop r =>
      rw [tryDecode_of_stop h]
      simp
    | fatal f r =>
      rw [tryDecode_of_fatal h]
      have := step_fatal_len h
      simp only [List.length_cons, List.length_nil]
      omega
    | frame f rest =>
      have hfl := step_frame_len h
      have hlen : rest.length ≤ n := by omega
      rw [tryDecode_of_frame h]
      have := ih rest hlen
      simp only [List.length_cons]
      omega

/-! ## `feedFrom` -/

theorem feedFrom_nil (r : List Nat) : feedFrom r [] = ([], r, false) :=
  rfl

theorem feedFrom_cons (r c : List Nat) (cs : List (List Nat)) :
    feedFrom r (c :: cs) =
      ((tryDecode (r ++ c)).1 ++ (feedFrom (tryDecode (r ++ c)).2.1 cs).1,
       (feedFrom (tryDecode (r ++ c)).2.1 cs).2.1,
       (tryDecode (r ++ c)).2.2 || (feedFrom (tryDecode (r ++ c)).2.1 cs).2.2) :=
  rfl

theorem feedFrom_eq_tryDecode : ∀ (cs : List (List Nat)) (r : List Nat),
    step r = StepResult.stop r →
    (tryDecode (r ++ cs.flatten)).2.2 = false →
    feedFrom r cs = tryDecode (r ++ cs.flatten) := by
  intro cs
  induction cs with
  | nil =>
    intro r hr _
    rw [feedFrom_nil, List.flatten_nil, List.append_nil, tryDecode_of_stop hr]
  | cons c cs ih =>
    intro r hr hok
    have hassoc : r ++ (c :: cs).flatten = (r ++ c) ++ cs.flatten := by
      rw [List.flatten_cons, ← List.append_assoc]
    rw [hassoc] at hok
    cases hthrew : (tryDecode (r ++ c)).2.2 with
    | true =>
      exfalso
      rw [tryDecode_append_err (r ++ c).length (r ++ c) cs.flatten (le_refl _) hthrew] at hok
      simp at hok
    | false =>
      have happ := tryDecode_append_ok (r ++ c).length (r ++ c) cs.flatten (le_refl _) hthrew
      have hok2 : (tryDecode ((tryDecode (r ++ c)).2.1 ++ cs.flatten)).2.2 = false := by
        rw [happ] at hok
        exact hok
      have hres := tryDecode_residue (r ++ c).length (r ++ c) (le_refl _) hthrew
      rw [feedFrom_cons, ih (tryDecode (r ++ c)).2.1 hres hok2, hassoc, happ, hthrew]
      simp

theorem feedFrom_suffix : ∀ (cs : List (List Nat)) (r : List Nat),
    (feedFrom r cs).2.1 <:+ r ++ cs.flatten := by
  intro cs
  induction cs with
  | nil =>
    intro r
    rw [feedFrom_nil, List.flatten_nil, List.append_nil]
  | cons c cs ih =>
    intro r
    rw [feedFrom_cons, List.flatten_cons, ← List.append_assoc]
    exact (ih (tryDecode (r ++ c)).2.1).trans
      (suffix_append_right cs.flatten
        (tryDecode_suffix (r ++ c).length (r ++ c) (le_refl _)))

/-! ## Behaviour on a single encoded frame -/

theorem tryDecode_encoded (ty : Nat) (p : List Nat) (h1 : 1 ≤ p.length)
    (h2 : p.length < 65536) :
    (tryDecode (0x61 :: (p.length / 256 % 256) :: (p.length % 256) :: ty :: p)).1 =
      [(ty, p)] := by
  set E := 0x61 :: (p.length / 256 % 256) :: (p.length % 256) :: ty :: p with hE
  have hhead : E.head? = some 0x61 := rfl
  have hlenE : E.length = p.length + 4 := by simp [hE]
  have hb3 : byteAt E 3 = ty := rfl
  have hlen : lenOf E = p.length := by
    have hb1 : byteAt E 1 = p.length / 256 % 256 := rfl
    have hb2 : byteAt E 2 = p.length % 256 := rfl
    unfold lenOf
    rw [hb1, hb2]
    omega
  have htake : E.take (lenOf E + 4) = E := by
    rw [hlen, ← hlenE]
    exact List.take_length E
  have hdropE : E.drop (lenOf E + 4) = [] := by
    rw [hlen, ← hlenE]
    exact List.drop_length E
  have hpay : (E.take (lenOf E + 4)).drop 4 = p := by
    rw [htake, hE]
    rfl
  have hstep : step E = stepSynced E := step_of_head hhead
  cases hd : decodePacket ty p with
  | error e =>
    have hss : stepSynced E = StepResult.fatal (ty, p) E := by
      unfold stepSynced
      rw [if_neg (by omega), if_neg (by omega), hb3, hpay, hd]
    rw [tryDecode_of_fatal (hstep.trans hss)]
  | ok d =>
    have hss : stepSynced E = StepResult.frame (ty, p) [] := by
      unfold stepSynced
      rw [if_neg (by omega), if_neg (by omega), hb3, hpay, hdropE, hd]
    rw [tryDecode_of_frame (hstep.trans hss)]
    simp [tryDecode, tryDecodeFuel]

theorem encodePacket_cons (k : PacketKind) (p : List Nat) :
    encodePacket k p =
      0x61 :: (p.length / 256 % 256) :: (p.length % 256) :: PACKET_TYPE_TO_ID k :: p :=
  rfl

/-! ## `decodePacket` helpers -/

theorem toAscii_of_lt : ∀ (text : List Nat), (∀ c ∈ text, c < 128) →
    toAscii text = text := by
  intro text
  induction text with
  | nil =>
    intro _
    rfl
  | cons x xs ih =>
    intro h
    have hx : x % 128 = x := Nat.mod_eq_of_lt (h x (List.mem_cons_self x xs))
    have hxs := ih (fun c hc => h c (List.mem_cons_of_mem x hc))
    simp only [toAscii, List.map_cons] at hxs ⊢
    rw [hx, hxs]

theorem decodePacket_unknown_field (b0 : Nat) (rest : List Nat)
    (h30 : b0 ≠ 0x30) (h31 : b0 ≠ 0x31) (h09 : b0 ≠ 0x09) (h0b : b0 ≠ 0x0b)
    (h39 : b0 ≠ 0x39) :
    decodePacket 0 (b0 :: rest) =
      Except.ok (some (DecodedPacket.unknown (some b0) rest)) := by
  simp [decodePacket, h30, h31, h09, h0b, h39]

/-! ## Claims -/

/-- C1 (amended).  For every packet kind and every payload `p` with
`1 <= |p| < 2^16`, feeding `encodePacket(t, p)` into the assembler with
an empty buffer extracts exactly the one pair `(typeId(t), p)`.
Decoding that pair yields a packet when `t` is channel, or when `t` is
control and `p` is not exactly `[0x0b]`; for `t` = speech decoding
yields `null` (no packet), not `Some`.  The original claim fails for
the empty payload (a 4-byte frame is never extracted) and for the
decode conclusion on speech frames. -/
theorem c1_framing_roundtrip (k : PacketKind) (p : List Nat)
    (h1 : 1 ≤ p.length) (h2 : p.length < 65536) :
    (tryDecode (encodePacket k p)).1 = [(PACKET_TYPE_TO_ID k, p)] ∧
    (k = PacketKind.channel →
      decodePacket (PACKET_TYPE_TO_ID k) p =
        Except.ok (some (DecodedPacket.outputSpeech p))) ∧
    (k = PacketKind.speech →
      decodePacket (PACKET_TYPE_TO_ID k) p = Except.ok none) ∧
    (k = PacketKind.control → p ≠ [0x0b] →
      ∃ d, decodePacket (PACKET_TYPE_TO_ID k) p = Except.ok (some d)) := by
  refine ⟨?_, ?_, ?_, ?_⟩
  · rw [encodePacket_cons]
    exact tryDecode_encoded (PACKET_TYPE_TO_ID k) p h1 h2
  · intro hk
    subst hk
    rfl
  · intro hk
    subst hk
    rfl
  · intro hk hp
    subst hk
    show ∃ d, decodePacket 0 p = Except.ok (some d)
    cases p with
    | nil => simp at h1
    | cons b0 rest =>
      by_cases h30 : b0 = 0x30
      · subst h30
        exact ⟨_, rfl⟩
      · by_cases h31 : b0 = 0x31
        · subst h31
          exact ⟨_, rfl⟩
        · by_cases h09 : b0 = 0x09
          · subst h09
            exact ⟨_, rfl⟩
          · by_cases h0b : b0 = 0x0b
            · subst h0b
              cases rest with
              | nil => exact absurd rfl hp
              | cons c rs => exact ⟨_, rfl⟩
            · by_cases h39 : b0 = 0x39
              · subst h39
                exact ⟨_, rfl⟩
              · exact ⟨_, decodePacket_unknown_field b0 rest h30 h31 h09 h0b h39⟩

/-- Witness for C1: the channel frame on payload `[5]`. -/
theorem c1_framing_roundtrip_witness :
    1 ≤ ([5] : List Nat).length ∧ ([5] : List Nat).length < 65536 ∧
    (tryDecode (encodePacket PacketKind.channel [5])).1 = [(1, [5])] :=
  ⟨by decide, by decide,
    (c1_framing_roundtrip PacketKind.channel [5] (by decide) (by decide)).1⟩

/-- C1 counterexample to the claim as stated: the empty control payload
(length 0, within the stated bound) produces a 4-byte frame from which
the assembler extracts nothing, and a speech frame decodes to `null`,
not to `Some` of the pair. -/
theorem c1_roundtrip_counterexample :
    (tryDecode (encodePacket PacketKind.control [])).1 = [] ∧
    decodePacket 2 [0x05] = Except.ok none := by
  exact ⟨by decide, rfl⟩

/-- C2 (amended).  The implementation performs no marker or count
validation at all: an AmbeChannel frame decodes unconditionally to an
output-speech packet carrying the raw payload, and a Pcm/Speech frame
always decodes to `null` (the silent no-packet outcome).  No fatal
typed error is raised for these frames. -/
theorem c2_channel_speech_no_validation (p : List Nat) :
    decodePacket 1 p = Except.ok (some (DecodedPacket.outputSpeech p)) ∧
    decodePacket 2 p = Except.ok none :=
  ⟨rfl, rfl⟩

/-- C2 counterexample to the claim as stated: the speech payload
`[0x00, 3, 1, 2, 3, 4]` (count promises 6 bytes, only 4 present)
produces the silent no-packet outcome `ok none`, not an error, and an
AmbeChannel payload starting with `0x00` (marker mismatch) decodes
successfully. -/
theorem c2_fatal_error_counterexample :
    decodePacket 2 [0x00, 3, 1, 2, 3, 4] = Except.ok none ∧
    decodePacket 1 [0x00, 7] =
      Except.ok (some (DecodedPacket.outputSpeech [0x00, 7])) :=
  ⟨rfl, rfl⟩

/-- C3 (amended).  After resynchronising to a buffer that starts with
the magic byte, extraction stops exactly when fewer than 5 bytes (not
4) remain, or when fewer than `4 + length` bytes are available;
otherwise the frame `(byte 3, bytes 4 .. 4+length)` is the next
extracted pair.  Consequently a complete zero-payload frame of exactly
4 bytes is NOT extracted: it stays in the buffer until a further byte
arrives. -/
theorem c3_extraction_stop_conditions (b : List Nat)
    (h : b.head? = some 0x61) :
    (b.length < 5 → tryDecode b = ([], b, false)) ∧
    (5 ≤ b.length → b.length < lenOf b + 4 → tryDecode b = ([], b, false)) ∧
    (5 ≤ b.length → lenOf b + 4 ≤ b.length →
      (tryDecode b).1.head? = some (byteAt b 3, (b.take (lenOf b + 4)).drop 4)) := by
  have hstep : step b = stepSynced b := step_of_head h
  refine ⟨?_, ?_, ?_⟩
  · intro h5
    rw [tryDecode_of_stop (hstep.trans (stepSynced_of_short h5))]
  · intro h5 hc
    rw [tryDecode_of_stop (hstep.trans (stepSynced_of_incomplete (by omega) hc))]
  · intro h5 hc
    cases hd : decodePacket (byteAt b 3) ((b.take (lenOf b + 4)).drop 4) with
    | error e =>
      have hss : stepSynced b =
          StepResult.fatal (byteAt b 3, (b.take (lenOf b + 4)).drop 4) b := by
        unfold stepSynced
        rw [if_neg (by omega), if_neg (by omega), hd]
      rw [tryDecode_of_fatal (hstep.trans hss)]
      rfl
    | ok d =>
      have hss : stepSynced b =
          StepResult.frame (byteAt b 3, (b.take (lenOf b + 4)).drop 4)
            (b.drop (lenOf b + 4)) := by
        unfold stepSynced
        rw [if_neg (by omega), if_neg (by omega), hd]
      rw [tryDecode_of_frame (hstep.trans hss)]
      rfl

/-- Witness for C3: a 5-byte buffer holding a zero-length frame plus
one extra byte is extracted (type 0, empty payload). -/
theorem c3_extraction_stop_conditions_witness :
    ([0x61, 0, 0, 0, 9] : List Nat).head? = some 0x61 ∧
    (tryDecode [0x61, 0, 0, 0, 9]).1.head? = some (0, []) :=
  ⟨rfl,
    (c3_extraction_stop_conditions [0x61, 0, 0, 0, 9] rfl).2.2
      (by decide) (by decide)⟩

/-- C3 counterexample to the claim as stated: the complete zero-payload
frame `[0x61, 0x00, 0x00, 0x02]` sits alone in the buffer and is NOT
extracted (the implementation stops below 5 buffered bytes, not 4). -/
theorem c3_zero_payload_counterexample :
    tryDecode [0x61, 0x00, 0x00, 0x02] =
      ([], [0x61, 0x00, 0x00, 0x02], false) := by
  decide

/-- C4 (amended).  Provided extraction over the whole byte sequence
raises no decode exception (no extracted frame is a control frame with
payload exactly `[0x0b]`), feeding any chunking of the sequence one
chunk at a time yields exactly the frames, final buffer and flag of a
single feed.  The proviso is necessary: a decode exception returns
before the buffer is advanced, so a later feed re-extracts the same
frame (see the counterexample). -/
theorem c4_chunked_feed_equals_single (chunks : List (List Nat))
    (h : (tryDecode chunks.flatten).2.2 = false) :
    feedFrom [] chunks = tryDecode chunks.flatten := by
  have hnil : step ([] : List Nat) = StepResult.stop [] := rfl
  have h0 : (tryDecode (([] : List Nat) ++ chunks.flatten)).2.2 = false := by
    rw [List.nil_append]
    exact h
  have hmain := feedFrom_eq_tryDecode chunks [] hnil h0
  rw [hmain, List.nil_append]

/-- Witness for C4: a control frame split across two feeds. -/
theorem c4_chunked_feed_equals_single_witness :
    (tryDecode ([[0x61, 0x00, 0x01, 0x00, 0x09], [0x61]] :
      List (List Nat)).flatten).2.2 = false ∧
    feedFrom [] [[0x61, 0x00, 0x01, 0x00, 0x09], [0x61]] =
      tryDecode ([[0x61, 0x00, 0x01, 0x00, 0x09], [0x61]] :
        List (List Nat)).flatten :=
  ⟨by decide,
    c4_chunked_feed_equals_single [[0x61, 0x00, 0x01, 0x00, 0x09], [0x61]]
      (by decide)⟩

/-- C4 counterexample to the claim as stated: the control frame with
payload `[0x0b]` makes `decodePacket` raise, so the buffer is not
advanced; feeding it and then a second frame re-extracts the poisoned
frame, while a single feed extracts it once. -/
theorem c4_chunked_feed_counterexample :
    (feedFrom [] [[0x61, 0x00, 0x01, 0x00, 0x0b],
      [0x61, 0x00, 0x01, 0x00, 0x09]]).1 ≠
    (tryDecode ([[0x61, 0x00, 0x01, 0x00, 0x0b],
      [0x61, 0x00, 0x01, 0x00, 0x09]] : List (List Nat)).flatten).1 := by
  decide

/-- C5 (amended).  For PCM data whose payload fits the 16-bit length
field (`|data| + 3 < 2^16`; above that bound the Node call
`writeUInt16BE` throws and no frame is written at all), the frame
written by `encodeSpeechPacket` carries the payload
`0x40 :: 0x00 :: 0xA0 :: pcm`: a channel-select byte `0x40`, the
marker `0x00`, then a HARDCODED sample-count byte `0xA0` = 160 that is
independent of the data; the count matches the attached PCM bytes only
when they number exactly 320 (160 16-bit samples). -/
theorem c5_speech_payload_layout (data : List Nat)
    (h : data.length + 3 < 65536) :
    encodeSpeechPacketBytes data =
      0x61 :: ((data.length + 3) / 256) :: ((data.length + 3) % 256) ::
        0x02 :: 0x40 :: 0x00 :: 0xA0 :: data ∧
    (2 * 0xA0 = data.length ↔ data.length = 320) := by
  constructor
  · have hL : (encodeSpeechPayload data).length = data.length + 3 := by
      simp [encodeSpeechPayload]
    have hm : (data.length + 3) / 256 % 256 = (data.length + 3) / 256 :=
      Nat.mod_eq_of_lt (by omega)
    unfold encodeSpeechPacketBytes
    rw [encodePacket_cons, hL, hm]
    rfl
  · omega

/-- Witness for C5 at empty PCM data. -/
theorem c5_speech_payload_layout_witness :
    ([] : List Nat).length + 3 < 65536 ∧
    encodeSpeechPacketBytes [] = [0x61, 0x00, 0x03, 0x02, 0x40, 0x00, 0xA0] ∧
    ¬ 2 * 0xA0 = ([] : List Nat).length :=
  ⟨by decide, (c5_speech_payload_layout [] (by decide)).1, by decide⟩

/-- C5 counterexample to the claim as stated: for empty PCM input the
payload written is `[0x40, 0x00, 0xA0]`; it starts with `0x40` rather
than the marker, and its count byte `0xA0` promises 160 samples while
none are attached, so it differs from the claimed `[0x00, 0x00]`. -/
theorem c5_sample_count_counterexample :
    encodeSpeechPayload [] = [0x40, 0x00, 0xA0] ∧
    ([0x40, 0x00, 0xA0] : List Nat) ≠ [0x00, 0x00] :=
  ⟨rfl, by decide⟩

/-- C6.  A control payload whose field identifier is none of
`{0x30, 0x31, 0x09, 0x0b, 0x39}` decodes to the Unknown variant
carrying that identifier and the remaining bytes unchanged; it never
fails and never yields `null`. -/
theorem c6_unknown_control_never_fails (b0 : Nat) (rest : List Nat)
    (h30 : b0 ≠ 0x30) (h31 : b0 ≠ 0x31) (h09 : b0 ≠ 0x09) (h0b : b0 ≠ 0x0b)
    (h39 : b0 ≠ 0x39) :
    decodePacket 0 (b0 :: rest) =
      Except.ok (some (DecodedPacket.unknown (some b0) rest)) :=
  decodePacket_unknown_field b0 rest h30 h31 h09 h0b h39

/-- Witness for C6 at field identifier 0x42. -/
theorem c6_unknown_control_never_fails_witness :
    decodePacket 0 (0x42 :: [1, 2]) =
      Except.ok (some (DecodedPacket.unknown (some 0x42) [1, 2])) :=
  c6_unknown_control_never_fails 0x42 [1, 2] (by decide) (by decide)
    (by decide) (by decide) (by decide)

/-- C7.  For ASCII text followed by one trailing delimiter byte, field
0x31 decodes to a VersionString equal to the text with exactly the
final byte removed, and field 0x30 to the same ProductId; in
particular `[0x31, 65, 66, 0]` decodes to the version text "AB". -/
theorem c7_version_product_trailing_strip (text : List Nat) (d : Nat)
    (h : ∀ c ∈ text, c < 128) :
    decodePacket 0 (0x31 :: (text ++ [d])) =
      Except.ok (some (DecodedPacket.verString text)) ∧
    decodePacket 0 (0x30 :: (text ++ [d])) =
      Except.ok (some (DecodedPacket.prodId text)) := by
  have hstrip : (toAscii (text ++ [d])).dropLast = text := by
    have h1 : toAscii (text ++ [d]) = toAscii text ++ [d % 128] := by
      unfold toAscii
      rw [List.map_append]
      rfl
    rw [h1, List.dropLast_concat, toAscii_of_lt text h]
  refine ⟨?_, ?_⟩ <;> simp [decodePacket, hstrip]

/-- Witness for C7 at the concrete example from the specification. -/
theorem c7_version_product_trailing_strip_witness :
    decodePacket 0 (0x31 :: ([65, 66] ++ [0])) =
      Except.ok (some (DecodedPacket.verString [65, 66])) :=
  (c7_version_product_trailing_strip [65, 66] 0 (by decide)).1

/-- C8.  Extraction from any finite buffer ends after finitely many
frames: the recursion of `tryDecodePacketsFromBuffer` needs no more
steps than the buffer length (extra fuel never changes the result),
and since every consumed frame removes at least its 4 header bytes,
the number of extracted frames is at most a quarter of the buffer
length. -/
theorem c8_extraction_terminates (b : List Nat) (extra : Nat) :
    tryDecodeFuel (b.length + extra) b = tryDecode b ∧
    4 * (tryDecode b).1.length ≤ b.length :=
  ⟨tryDecodeFuel_irrel (b.length + extra) b.length b (by omega) (le_refl _),
    tryDecode_frames_le b.length b (le_refl _)⟩

/-- C9.  The assembler buffer is always a contiguous suffix of the
bytes fed so far: one extraction pass leaves a suffix of the buffer,
and feeding any chunk sequence (each feed appended at the end by
`addData`) leaves a suffix of the initial buffer followed by all fed
bytes. -/
theorem c9_buffer_is_suffix_of_fed (buffer : List Nat)
    (chunks : List (List Nat)) :
    (tryDecode buffer).2.1 <:+ buffer ∧
    (feedFrom buffer chunks).2.1 <:+ addData buffer chunks.flatten :=
  ⟨tryDecode_suffix buffer.length buffer (le_refl _),
    feedFrom_suffix chunks buffer⟩

/-- C10.  Decoding a control frame whose payload is exactly the single
byte 0x0b raises the out-of-range error of `payload.readUInt8()` on
the empty remainder — neither a decoded packet nor `null` — while a
second byte yields the InitResult with success exactly when that byte
is zero. -/
theorem c10_init_requires_status_byte :
    decodePacket 0 [0x0b] = Except.error () ∧
    (∀ b rest, decodePacket 0 (0x0b :: b :: rest) =
      Except.ok (some (DecodedPacket.init (b == 0)))) :=
  ⟨rfl, fun _ _ => rfl⟩

/-- Witness for C10: a two-byte init payload decodes. -/
theorem c10_init_requires_status_byte_witness :
    decodePacket 0 [0x0b, 0x05] =
      Except.ok (some (DecodedPacket.init false)) :=
  c10_init_requires_status_byte.2 0x05 []
